import Mathlib

/-! # Verification of the ImaGene genomic-image pipeline

Shallow embedding of the operations of `ImaGene.py` — the haplotype parsing
of `ImaFile.read_simulations` and the batch transforms of the `ImaGene`
class (`majorminor`, `filter_freq`, `resize`, `sort`, `set_classes`,
`set_targets`, `subset`) — together with theorems settling the
specification claims about them.

Modelling conventions:
* a sample matrix `data[i][:,:,0]` is a `List (List Nat)` of rows of byte
  intensities;
* `positions[i]` is a `List ℚ` (`float32` positions modelled as rationals);
* `description[i][parameter_name]` — the only metadata field the embedded
  operations read — is modelled as one `Int` per sample (`int32` targets);
* `np.mean` over bytes is modelled exactly, as a rational;
* `np.argsort` is modelled as a stable sort of the index range (ascending
  by key, ties broken by index);
* the skimage interpolation inside `resize` is an external library call and
  is abstracted as an arbitrary function producing bytes.
-/

/-- Number of columns of a matrix stored as a list of rows (`shape[1]`). -/
def ncols (m : List (List Nat)) : Nat := (m.headD []).length

/-- Column `c` of a matrix, `m[:, c]`. -/
def column (m : List (List Nat)) (c : Nat) : List Nat :=
  m.map (fun row => row.getD c 0)

/-- All columns of a matrix, `m[:, c]` for `c < ncols m`. -/
def colsOf (m : List (List Nat)) : List (List Nat) :=
  (List.range (ncols m)).map (column m)

/-- Rebuild a matrix with `n` rows from a list of columns. -/
def fromCols (n : Nat) (cols : List (List Nat)) : List (List Nat) :=
  (List.range n).map (fun r => cols.map (fun col => col.getD r 0))

/-- `np.mean(m / 255., axis=0)[c]`: mean over rows of column `c`, with the
byte values scaled into `[0, 1]`. -/
def colMean (m : List (List Nat)) (c : Nat) : ℚ :=
  ((m.map (fun row => (row.getD c 0 : ℚ) / 255)).sum) / (m.length : ℚ)

/-- Index comparison modelling `np.argsort` as a stable sort: order indices
by their key, breaking ties by the index itself. -/
def idxLe {α : Type} [LinearOrder α] (d : α) (ks : List α) (i j : Nat) : Prop :=
  ks.getD i d < ks.getD j d ∨ (ks.getD i d = ks.getD j d ∧ i ≤ j)

instance {α : Type} [LinearOrder α] (d : α) (ks : List α) : DecidableRel (idxLe d ks) :=
  fun i j =>
    inferInstanceAs (Decidable (ks.getD i d < ks.getD j d ∨ (ks.getD i d = ks.getD j d ∧ i ≤ j)))

instance {α : Type} [LinearOrder α] (d : α) (ks : List α) : IsTotal Nat (idxLe d ks) where
  total := by
    intro i j
    rcases lt_trichotomy (ks.getD i d) (ks.getD j d) with h | h | h
    · exact Or.inl (Or.inl h)
    · rcases Nat.le_total i j with hij | hij
      · exact Or.inl (Or.inr ⟨h, hij⟩)
      · exact Or.inr (Or.inr ⟨h.symm, hij⟩)
    · exact Or.inr (Or.inl h)

instance {α : Type} [LinearOrder α] (d : α) (ks : List α) : IsTrans Nat (idxLe d ks) where
  trans := by
    intro i j k hij hjk
    rcases hij with h1 | ⟨e1, l1⟩ <;> rcases hjk with h2 | ⟨e2, l2⟩
    · exact Or.inl (h1.trans h2)
    · exact Or.inl (lt_of_lt_of_le h1 (le_of_eq e2))
    · exact Or.inl (lt_of_le_of_lt (le_of_eq e1) h2)
    · exact Or.inr ⟨e1.trans e2, l1.trans l2⟩

/-- `np.argsort ks` (stable, ascending). -/
def argsortAsc {α : Type} [LinearOrder α] (d : α) (ks : List α) : List Nat :=
  List.insertionSort (idxLe d ks) (List.range ks.length)

/-- `np.argsort(ks)[::-1]`. -/
def argsortDesc {α : Type} [LinearOrder α] (d : α) (ks : List α) : List Nat :=
  (argsortAsc d ks).reverse

/-! ## Parsing (`ImaFile.read_simulations`) -/

/-- First haplotype-character rewrite:
`'1' if element != '0' and element != 1 else element` — the comparison of a
character with the integer `1` is always true in the source, so only the
`'0'` test is operative. -/
def hapStep1 (c : Char) : Char := if c ≠ '0' then '1' else c

/-- Second rewrite plus storage into the `uint8` array: `'1'` becomes the
string `'255'`, the only residual character is `'0'`, and numpy converts
those decimal strings to the bytes `255` and `0`. -/
def hapStep2 (c : Char) : Nat := if c = '1' then 255 else 0

/-- One haplotype line parsed to a row of byte intensities. -/
def parseHapLine (s : String) : List Nat :=
  s.toList.map (fun c => hapStep2 (hapStep1 c))

/-- The haplotype block of one run parsed to a matrix, one row per line. -/
def parseRunMatrix (lines : List String) : List (List Nat) :=
  lines.map parseHapLine

/-- Decimal digits to a number, the final `int(...)` conversion. -/
def digitsToNat (cs : List Char) : Nat :=
  cs.foldl (fun n c => n * 10 + (c.toNat - 48)) 0

/-- The suffix after the first occurrence of `sep`, modelling
`line.split(sep)[1]` for the header lines the parser reads. -/
def afterToken (sep : List Char) : List Char → List Char
  | [] => []
  | c :: cs => if sep.isPrefixOf (c :: cs) then (c :: cs).drop sep.length else afterToken sep cs

/-- `int(line.split('segsites: ')[1])`. -/
def parseSegsites (line : String) : Nat :=
  digitsToNat (afterToken "segsites: ".toList line.toList)

/-! ## The `ImaGene` batch state -/

/-- The fields of an `ImaGene` object that the embedded operations touch. -/
structure ImaGene where
  data : List (List (List Nat))
  positions : List (List ℚ)
  description : List Int
  targets : List Int
  classes : List Int
  dimensions : List Nat × List Nat
deriving DecidableEq

/-- Overwrite the first `vals.length` slots of `old` — elementwise assignment
in a loop over `range(len(vals))` — keeping the tail of `old`. -/
def overwriteFront {α : Type} (d : α) (old vals : List α) : List α :=
  (List.range old.length).map (fun i => if i < vals.length then vals.getD i d else old.getD i d)

/-- Column flip of `majorminor`: columns whose mean intensity fraction
exceeds 0.5 are inverted (`255 - value`). -/
def flipMajor (m : List (List Nat)) : List (List Nat) :=
  m.map (fun row => row.mapIdx (fun c v => if 1 / 2 < colMean m c then 255 - v else v))

/-- One pass of the loop body of `majorminor`. The source reads and writes
`self.data[0]` — not `self.data[i]` — inside its loop over `i`. -/
def majorStep (d : List (List (List Nat))) : List (List (List Nat)) :=
  d.set 0 (flipMajor (d.headD []))

/-- `ImaGene.majorminor`: the loop body runs once per sample, each time on
sample 0. -/
def ImaGene.majorminor (g : ImaGene) : ImaGene :=
  { g with data := Nat.iterate majorStep g.data.length g.data }

/-- Modelled from the spec: "for each sample, compute the per-column mean
intensity (fraction of 255-valued cells); for columns whose mean exceeds 0.5,
invert intensities (255 − value)" — the per-sample polarization that
`majorminor`'s loop header suggests but its body (fixed to `self.data[0]`)
does not perform. -/
def ImaGene.majorminorSpec (g : ImaGene) : ImaGene :=
  { g with data := g.data.map flipMajor }

/-- Column indices kept by `filter_freq`:
`np.where(np.mean(data[i]/255., axis=0) >= minimal_maf)[0]`. -/
def keptCols (t : ℚ) (m : List (List Nat)) : List Nat :=
  (List.range (ncols m)).filter (fun c => decide (t ≤ colMean m c))

/-- `data[i] = data[i][:, idx, :]`. -/
def filterCols (t : ℚ) (m : List (List Nat)) : List (List Nat) :=
  m.map (fun row => (keptCols t m).map (fun c => row.getD c 0))

/-- `positions[i] = positions[i][idx]`. -/
def filterPos (t : ℚ) (m : List (List Nat)) (pos : List ℚ) : List ℚ :=
  (keptCols t m).map (fun c => pos.getD c 0)

/-- `ImaGene.filter_freq`: drop the columns of every sample whose mean
intensity fraction is below the threshold, filter positions with the same
index set, and refresh the column-count slots of `dimensions`. -/
def ImaGene.filter_freq (t : ℚ) (g : ImaGene) : ImaGene :=
  let nd := (List.range g.data.length).map (fun i => filterCols t (g.data.getD i []))
  { g with
    data := nd
    positions := overwriteFront [] g.positions
      ((List.range g.data.length).map
        (fun i => filterPos t (g.data.getD i []) (g.positions.getD i [])))
    dimensions := (g.dimensions.1, overwriteFront 0 g.dimensions.2 (nd.map ncols)) }

/-- `int(np.mean l)` for the nonnegative dimension statistics. -/
def natMean (l : List Nat) : Nat := l.sum / l.length

/-- `int(l.min())` (0 on the empty list, where numpy would raise). -/
def natMin (l : List Nat) : Nat := l.foldr min (l.headD 0)

/-- `int(l.max())` (0 on the empty list, where numpy would raise). -/
def natMax (l : List Nat) : Nat := l.foldr max (l.headD 0)

/-- Target-shape selection of `resize`: `option` is `'mean'`, `'min'`,
`'max'`, or anything else (then the explicit `dims` is used). -/
def resolveDims (dims : Nat × Nat) (opt : Option String) (g : ImaGene) : Nat × Nat :=
  if opt = some "mean" then (natMean g.dimensions.1, natMean g.dimensions.2)
  else if opt = some "min" then (natMin g.dimensions.1, natMin g.dimensions.2)
  else if opt = some "max" then (natMax g.dimensions.1, natMax g.dimensions.2)
  else dims

/-- `ImaGene.resize`: every sample is replaced by a fresh `d.1 × d.2` matrix
of interpolated bytes. The skimage call
`(skimage.transform.resize(image, d, ...) * 255).astype('uint8')` is
abstracted as `interp` (sample → row → column → value), reduced mod 256 to
reflect the `uint8` store; `set_to_boundaries` then thresholds every byte at
128. Positions are not touched; the dimension slots are refreshed. -/
def ImaGene.resize (dims : Nat × Nat) (opt : Option String) (snap : Bool)
    (interp : Nat → Nat → Nat → Nat) (g : ImaGene) : ImaGene :=
  let d := resolveDims dims opt g
  let nd := (List.range g.data.length).map (fun i =>
    (List.range d.1).map (fun r =>
      (List.range d.2).map (fun c =>
        let v := interp i r c % 256
        if snap then (if v < 128 then 0 else 255) else v)))
  { g with
    data := nd
    dimensions := (overwriteFront 0 g.dimensions.1 (List.replicate g.data.length d.1),
                   overwriteFront 0 g.dimensions.2 (List.replicate g.data.length d.2)) }

/-! ## `ImaGene.sort` -/

/-- `np.unique(m, axis=0)`: the distinct rows, sorted lexicographically. -/
def uniqueRows (m : List (List Nat)) : List (List Nat) :=
  List.insertionSort (fun a b => a ≤ b) m.dedup

/-- The `counts` returned by `np.unique(..., return_counts=True)`:
multiplicity of each distinct row in the matrix. -/
def countsOf (xs : List (List Nat)) : List Nat :=
  (uniqueRows xs).map (fun u => xs.count u)

/-- The fill loop `for j in ord: for z in range(counts[j]): write uniques[j]`:
the groups written out in the order `ord`, each repeated its count. -/
def regroup (xs : List (List Nat)) (ord : List Nat) : List (List Nat) :=
  ord.flatMap (fun j => List.replicate ((countsOf xs).getD j 0) ((uniqueRows xs).getD j []))

/-- `'rows_freq'`: groups of identical rows in descending-count order. -/
def sortRowsFreq (m : List (List Nat)) : List (List Nat) :=
  regroup m (argsortDesc 0 (countsOf m))

/-- `np.mean(np.abs(xs - ys))` over one row or column pair. -/
def meanAbsDist (xs ys : List Nat) : ℚ :=
  ((List.zipWith (fun a b => |(a : ℚ) - (b : ℚ)|) xs ys).sum) / (xs.length : ℚ)

/-- Distances of every group from the most frequent group
(`uniques[counts.argsort()[::-1][0]]`). -/
def distsOf (xs : List (List Nat)) : List ℚ :=
  (uniqueRows xs).map
    (fun row => meanAbsDist row ((uniqueRows xs).getD ((argsortDesc 0 (countsOf xs)).headD 0) []))

/-- `'rows_dist'`: groups of identical rows in ascending distance from the
most frequent row. -/
def sortRowsDist (m : List (List Nat)) : List (List Nat) :=
  regroup m (argsortAsc 0 (distsOf m))

/-- `'cols_freq'`: the same regrouping applied to the columns
(`np.unique(..., axis=1)` groups identical columns), written back column by
column into the `m.length`-row matrix. -/
def sortColsFreq (m : List (List Nat)) : List (List Nat) :=
  fromCols m.length (regroup (colsOf m) (argsortDesc 0 (countsOf (colsOf m))))

/-- `'cols_dist'`. -/
def sortColsDist (m : List (List Nat)) : List (List Nat) :=
  fromCols m.length (regroup (colsOf m) (argsortAsc 0 (distsOf (colsOf m))))

/-- `ImaGene.sort`: dispatch on the ordering string; an unknown ordering
returns code 1 and leaves the object untouched. -/
def ImaGene.sort (ordering : String) (g : ImaGene) : Nat × ImaGene :=
  if ordering = "rows_freq" then (0, { g with data := g.data.map sortRowsFreq })
  else if ordering = "cols_freq" then (0, { g with data := g.data.map sortColsFreq })
  else if ordering = "rows_dist" then (0, { g with data := g.data.map sortRowsDist })
  else if ordering = "cols_dist" then (0, { g with data := g.data.map sortColsDist })
  else (1, g)

/-! ## Classes and targets -/

/-- `np.unique` on a flat integer array: sorted distinct values. -/
def sortedUnique (l : List Int) : List Int :=
  List.insertionSort (fun a b => a ≤ b) l.dedup

/-- `l.min()` (0 on the empty list, where numpy would raise). -/
def intMin (l : List Int) : Int := l.foldr min (l.headD 0)

/-- `l.max()` (0 on the empty list, where numpy would raise). -/
def intMax (l : List Int) : Int := l.foldr max (l.headD 0)

/-- Truncation toward zero, the effect of `astype('int32')`. -/
def ratTrunc (q : ℚ) : Int := if q < 0 then ⌈q⌉ else ⌊q⌋

/-- `np.asarray(np.linspace(a, b, n), dtype='int32')`. -/
def intLinspace (a b : Int) (n : Nat) : List Int :=
  if n = 1 then [a]
  else (List.range n).map
    (fun i => ratTrunc ((a : ℚ) + (i : ℚ) * ((b : ℚ) - (a : ℚ)) / ((n : ℚ) - 1)))

/-- `ImaGene.set_classes`: recompute the raw targets from the metadata, then
set `classes` to a linspace over their range (if `nr_classes > 0`), to the
explicit argument (if nonempty), or to the distinct raw values. The local
`targets` array is discarded; only the `classes` field is assigned. -/
def ImaGene.set_classes (classesArg : List Int) (nr_classes : Nat) (g : ImaGene) : ImaGene :=
  let targets := (List.range g.data.length).map (fun i => g.description.getD i 0)
  let cls :=
    if 0 < nr_classes then intLinspace (intMin targets) (intMax targets) nr_classes
    else if classesArg ≠ [] then classesArg
    else sortedUnique targets
  { g with classes := cls }

/-- `classes[np.argsort(np.abs(t - classes))[0]]`: the class nearest to `t`,
first index on ties. -/
def snapClass (t : Int) (classes : List Int) : Int :=
  classes.getD ((argsortAsc 0 (classes.map (fun c => (t - c).natAbs))).headD 0) 0

/-- `ImaGene.set_targets`: re-derive each raw target from the metadata and
snap it to the nearest class. -/
def ImaGene.set_targets (g : ImaGene) : ImaGene :=
  { g with
    targets := (List.range g.data.length).map
      (fun i => snapClass (g.description.getD i 0) g.classes) }

/-- `ImaGene.subset`: reindex the four parallel sequences by `index` and
refresh the dimension slots. -/
def ImaGene.subset (index : List Nat) (g : ImaGene) : ImaGene :=
  let nd := index.map (fun i => g.data.getD i [])
  { g with
    targets := index.map (fun i => g.targets.getD i 0)
    data := nd
    positions := index.map (fun i => g.positions.getD i [])
    description := index.map (fun i => g.description.getD i 0)
    dimensions := (overwriteFront 0 g.dimensions.1 (nd.map List.length),
                   overwriteFront 0 g.dimensions.2 (nd.map ncols)) }

/-! ## Theorems -/

/-- **C3**: parsing a run block maps every haplotype character other than
`'0'` to intensity 255 and `'0'` to intensity 0; in particular the block with
`segsites: 5` and haplotype lines `00101`, `01100`, `00000` parses to the
3-by-5 matrix `[[0,0,255,0,255],[0,255,255,0,0],[0,0,0,0,0]]`. -/
theorem C3_parse_run_block :
    (∀ c : Char, hapStep2 (hapStep1 c) = if c = '0' then 0 else 255) ∧
    parseSegsites "segsites: 5" = 5 ∧
    parseRunMatrix ["00101", "01100", "00000"] =
      [[0, 0, 255, 0, 255], [0, 255, 255, 0, 0], [0, 0, 0, 0, 0]] := by
  refine ⟨?_, ?_, ?_⟩
  · intro c
    by_cases h : c = '0'
    · subst h; rfl
    · simp [hapStep1, hapStep2, h]
  · rfl
  · rfl

/-- A small concrete collection used by several witnesses. -/
def gEx : ImaGene :=
  { data := [[[0, 255], [255, 255]]]
    positions := [[1 / 10, 2 / 10]]
    description := [3]
    targets := [3]
    classes := [0, 5]
    dimensions := ([2], [2]) }

/-- A two-sample collection on which `majorminor` exhibits its fixed-index
loop body: sample 1 is a single all-255 column. -/
def gC1 : ImaGene :=
  { data := [[[0]], [[255]]]
    positions := [[0], [0]]
    description := [0, 0]
    targets := [0, 0]
    classes := [0]
    dimensions := ([1, 1], [1, 1]) }

/-- **C10**: `set_classes` assigns only the `classes` field; the data
matrices, positions, descriptions, stored targets and dimensions of the
collection are all unchanged by the call. -/
theorem C10_set_classes_frame (g : ImaGene) (classesArg : List Int) (nr_classes : Nat) :
    (ImaGene.set_classes classesArg nr_classes g).data = g.data ∧
    (ImaGene.set_classes classesArg nr_classes g).positions = g.positions ∧
    (ImaGene.set_classes classesArg nr_classes g).description = g.description ∧
    (ImaGene.set_classes classesArg nr_classes g).targets = g.targets ∧
    (ImaGene.set_classes classesArg nr_classes g).dimensions = g.dimensions :=
  ⟨rfl, rfl, rfl, rfl, rfl⟩

/-- **C8**: `sort` with an ordering string that is none of the four valid
modes returns the failure code 1 and the collection exactly as it was. -/
theorem C8_sort_invalid_mode (g : ImaGene) (ordering : String)
    (h1 : ordering ≠ "rows_freq") (h2 : ordering ≠ "cols_freq")
    (h3 : ordering ≠ "rows_dist") (h4 : ordering ≠ "cols_dist") :
    ImaGene.sort ordering g = (1, g) := by
  simp [ImaGene.sort, h1, h2, h3, h4]

theorem C8_sort_invalid_mode_witness :
    ImaGene.sort "alphabetical" gEx = (1, gEx) :=
  C8_sort_invalid_mode gEx "alphabetical" (by decide) (by decide) (by decide) (by decide)

/-- **C1** (code evaluation at the failing input): on the two-sample
collection `gC1`, sample 1 consists of one column whose mean intensity
fraction is 1 > 0.5, yet `majorminor` leaves the whole collection — sample 1
included — unchanged, because its loop body reads and writes `self.data[0]`
only; the per-sample polarization described by the spec
(`majorminorSpec`) flips sample 1 to 0. -/
theorem C1_majorminor_eval :
    (ImaGene.majorminor gC1).data = [[[0]], [[255]]] ∧
    1 / 2 < colMean [[255]] 0 ∧
    (ImaGene.majorminorSpec gC1).data = [[[0]], [[0]]] := by
  refine ⟨?_, ?_, ?_⟩
  · norm_num [ImaGene.majorminor, gC1, Nat.iterate, majorStep, flipMajor, colMean,
      List.mapIdx_cons, List.mapIdx_nil]
  · norm_num [colMean]
  · norm_num [ImaGene.majorminorSpec, gC1, flipMajor, colMean,
      List.mapIdx_cons, List.mapIdx_nil]

/-! ## Generic list lemmas -/

theorem getD_range_map {α : Type} (d : α) (n : Nat) (f : Nat → α) {i : Nat} (h : i < n) :
    ((List.range n).map f).getD i d = f i := by
  rw [List.getD_eq_getElem _ _ (by simpa using h)]
  simp

theorem range_map_getD {α : Type} (d : α) (l : List α) :
    (List.range l.length).map (fun i => l.getD i d) = l := by
  apply List.ext_getElem
  · simp
  · intro n h1 h2
    simp only [List.getElem_map, List.getElem_range]
    exact List.getD_eq_getElem l d h2

theorem ncols_range_map (d1 d2 : Nat) (f : Nat → Nat → Nat) (h : 0 < d1) :
    ncols ((List.range d1).map (fun r => (List.range d2).map (f r))) = d2 := by
  cases d1 with
  | zero => exact absurd h (by simp)
  | succ n => simp [ncols, List.range_succ_eq_map]

theorem ncols_filterCols (t : ℚ) (m : List (List Nat)) (h : 0 < m.length) :
    ncols (filterCols t m) = (keptCols t m).length := by
  cases m with
  | nil => exact absurd h (by simp)
  | cons x xs => simp [ncols, filterCols]

/-! ## C7: resize with boundary snapping produces only 0 and 255 -/

/-- **C7**: after `resize` with `set_to_boundaries`, every cell of every
sample is the 128-threshold of the interpolated byte: bytes below 128 become
0 and all others become 255; in particular every cell is 0 or 255. -/
theorem C7_resize_snap_binary (g : ImaGene) (dims : Nat × Nat) (opt : Option String)
    (interp : Nat → Nat → Nat → Nat) (i r c : Nat)
    (hi : i < g.data.length) (hr : r < (resolveDims dims opt g).1)
    (hc : c < (resolveDims dims opt g).2) :
    (((ImaGene.resize dims opt true interp g).data.getD i []).getD r []).getD c 0 =
      (if interp i r c % 256 < 128 then 0 else 255) ∧
    ((((ImaGene.resize dims opt true interp g).data.getD i []).getD r []).getD c 0 = 0 ∨
      (((ImaGene.resize dims opt true interp g).data.getD i []).getD r []).getD c 0 = 255) := by
  have hdata : (ImaGene.resize dims opt true interp g).data =
      (List.range g.data.length).map (fun i =>
        (List.range (resolveDims dims opt g).1).map (fun r =>
          (List.range (resolveDims dims opt g).2).map (fun c =>
            if interp i r c % 256 < 128 then 0 else 255))) := rfl
  rw [hdata, getD_range_map _ _ _ hi, getD_range_map _ _ _ hr, getD_range_map _ _ _ hc]
  refine ⟨rfl, ?_⟩
  split
  · exact Or.inl rfl
  · exact Or.inr rfl

/-- A concrete interpolation function. -/
def interp0 : Nat → Nat → Nat → Nat := fun _ _ _ => 0

/-- A second concrete interpolation function, hitting the 255 branch. -/
def interp200 : Nat → Nat → Nat → Nat := fun _ _ _ => 200

theorem C7_resize_snap_binary_witness :
    (((ImaGene.resize (1, 1) none true interp200 gEx).data.getD 0 []).getD 0 []).getD 0 0 =
      (if interp200 0 0 0 % 256 < 128 then 0 else 255) ∧
    ((((ImaGene.resize (1, 1) none true interp200 gEx).data.getD 0 []).getD 0 []).getD 0 0 = 0 ∨
      (((ImaGene.resize (1, 1) none true interp200 gEx).data.getD 0 []).getD 0 []).getD 0 0 = 255) :=
  C7_resize_snap_binary gEx (1, 1) none interp200 0 0 0 (by decide) (by decide) (by decide)

/-! ## C2: the positions/columns alignment invariant -/

/-- **C2** (counterexample to the claim as stated): `gEx` satisfies the
alignment invariant (2 positions, 2 columns), but after `resize` to 3
columns the positions array still has 2 entries while the matrix has 3
columns: `resize` does not preserve the invariant. -/
theorem C2_resize_breaks_invariant :
    (gEx.positions.getD 0 []).length = ncols (gEx.data.getD 0 []) ∧
    ((ImaGene.resize (2, 3) none true interp0 gEx).positions.getD 0 []).length ≠
      ncols ((ImaGene.resize (2, 3) none true interp0 gEx).data.getD 0 []) := by
  exact ⟨rfl, by decide⟩

/-- **C2** (amended): `filter_freq` preserves the invariant that the number
of positions of sample `i` equals its column count (both become the number
of kept columns); `resize`, however, leaves `positions` untouched while
forcing every sample's column count to the resolved target, so after
`resize` the invariant holds only when the target column count coincides
with the sample's position count. -/
theorem C2_invariant_filter_and_resize (g : ImaGene) (t : ℚ) (i : Nat)
    (hi : i < g.data.length) (hip : i < g.positions.length)
    (hrows : 0 < (g.data.getD i []).length) :
    (((ImaGene.filter_freq t g).positions.getD i []).length =
      ncols ((ImaGene.filter_freq t g).data.getD i [])) ∧
    (∀ dims opt snap interp, 0 < (resolveDims dims opt g).1 →
      (ImaGene.resize dims opt snap interp g).positions = g.positions ∧
      ncols ((ImaGene.resize dims opt snap interp g).data.getD i []) =
        (resolveDims dims opt g).2) := by
  constructor
  · have hdata : (ImaGene.filter_freq t g).data =
        (List.range g.data.length).map (fun j => filterCols t (g.data.getD j [])) := rfl
    have hpos : (ImaGene.filter_freq t g).positions =
        overwriteFront [] g.positions
          ((List.range g.data.length).map
            (fun j => filterPos t (g.data.getD j []) (g.positions.getD j []))) := rfl
    rw [hdata, hpos, getD_range_map _ _ _ hi, overwriteFront,
      getD_range_map _ _ _ hip, ncols_filterCols t _ hrows]
    have hlt : i < ((List.range g.data.length).map
        (fun j => filterPos t (g.data.getD j []) (g.positions.getD j []))).length := by
      simpa using hi
    rw [if_pos hlt, getD_range_map _ _ _ hi]
    simp [filterPos]
  · intro dims opt snap interp hd1
    refine ⟨rfl, ?_⟩
    have hdata : (ImaGene.resize dims opt snap interp g).data =
        (List.range g.data.length).map (fun i =>
          (List.range (resolveDims dims opt g).1).map (fun r =>
            (List.range (resolveDims dims opt g).2).map (fun c =>
              if snap then (if interp i r c % 256 < 128 then 0 else 255)
              else interp i r c % 256))) := rfl
    rw [hdata, getD_range_map _ _ _ hi]
    exact ncols_range_map _ _ _ hd1

theorem C2_invariant_filter_and_resize_witness :
    (((ImaGene.filter_freq (1 / 2) gEx).positions.getD 0 []).length =
      ncols ((ImaGene.filter_freq (1 / 2) gEx).data.getD 0 [])) ∧
    (∀ dims opt snap interp, 0 < (resolveDims dims opt gEx).1 →
      (ImaGene.resize dims opt snap interp gEx).positions = gEx.positions ∧
      ncols ((ImaGene.resize dims opt snap interp gEx).data.getD 0 []) =
        (resolveDims dims opt gEx).2) :=
  C2_invariant_filter_and_resize gEx (1 / 2) 0 (by decide) (by decide) (by decide)

/-! ## C9: subset with the identity and with inverse permutations -/

theorem map_comp_restore {α : Type} (d : α) (l : List α) (P Q : List Nat) (n : Nat)
    (hl : l.length = n) (hlenQ : Q.length = n)
    (hQ : ∀ k, k < n → Q.getD k 0 < P.length ∧ P.getD (Q.getD k 0) 0 = k) :
    Q.map (fun k => (P.map (fun j => l.getD j d)).getD k d) = l := by
  apply List.ext_getElem
  · simp [hlenQ, hl]
  · intro k h1 h2
    simp only [List.getElem_map]
    have hk : k < n := by simpa [hlenQ] using h1
    have hQk : Q[k] = Q.getD k 0 :=
      (List.getD_eq_getElem Q 0 (by simpa [hlenQ] using hk)).symm
    rcases hQ k hk with ⟨hlt, hPQ⟩
    rw [hQk, List.getD_eq_getElem _ d (by simpa using hlt), List.getElem_map,
      ← List.getD_eq_getElem P 0 hlt, hPQ]
    exact List.getD_eq_getElem l d h2

/-- **C9**: `subset` with the identity permutation `range n` leaves the four
parallel sequences (matrices, positions, metadata, targets) unchanged, and
`subset` with a permutation `P` followed by `subset` with its inverse `Q`
restores all four parallel sequences exactly. -/
theorem C9_subset_identity_inverse (g : ImaGene) (P Q : List Nat)
    (hT : g.targets.length = g.data.length)
    (hPos : g.positions.length = g.data.length)
    (hD : g.description.length = g.data.length)
    (hlenQ : Q.length = g.data.length)
    (hQ : ∀ k, k < g.data.length → Q.getD k 0 < P.length ∧ P.getD (Q.getD k 0) 0 = k) :
    ((ImaGene.subset (List.range g.data.length) g).data = g.data ∧
     (ImaGene.subset (List.range g.data.length) g).positions = g.positions ∧
     (ImaGene.subset (List.range g.data.length) g).description = g.description ∧
     (ImaGene.subset (List.range g.data.length) g).targets = g.targets) ∧
    ((ImaGene.subset Q (ImaGene.subset P g)).data = g.data ∧
     (ImaGene.subset Q (ImaGene.subset P g)).positions = g.positions ∧
     (ImaGene.subset Q (ImaGene.subset P g)).description = g.description ∧
     (ImaGene.subset Q (ImaGene.subset P g)).targets = g.targets) := by
  constructor
  · refine ⟨?_, ?_, ?_, ?_⟩
    · exact range_map_getD [] g.data
    · rw [show (ImaGene.subset (List.range g.data.length) g).positions =
        (List.range g.data.length).map (fun i => g.positions.getD i []) from rfl, ← hPos]
      exact range_map_getD [] g.positions
    · rw [show (ImaGene.subset (List.range g.data.length) g).description =
        (List.range g.data.length).map (fun i => g.description.getD i 0) from rfl, ← hD]
      exact range_map_getD 0 g.description
    · rw [show (ImaGene.subset (List.range g.data.length) g).targets =
        (List.range g.data.length).map (fun i => g.targets.getD i 0) from rfl, ← hT]
      exact range_map_getD 0 g.targets
  · refine ⟨?_, ?_, ?_, ?_⟩
    · exact map_comp_restore [] g.data P Q g.data.length rfl hlenQ hQ
    · exact map_comp_restore [] g.positions P Q g.data.length hPos hlenQ hQ
    · exact map_comp_restore 0 g.description P Q g.data.length hD hlenQ hQ
    · exact map_comp_restore 0 g.targets P Q g.data.length hT hlenQ hQ

theorem C9_subset_identity_inverse_witness :
    ((ImaGene.subset (List.range gC1.data.length) gC1).data = gC1.data ∧
     (ImaGene.subset (List.range gC1.data.length) gC1).positions = gC1.positions ∧
     (ImaGene.subset (List.range gC1.data.length) gC1).description = gC1.description ∧
     (ImaGene.subset (List.range gC1.data.length) gC1).targets = gC1.targets) ∧
    ((ImaGene.subset [1, 0] (ImaGene.subset [1, 0] gC1)).data = gC1.data ∧
     (ImaGene.subset [1, 0] (ImaGene.subset [1, 0] gC1)).positions = gC1.positions ∧
     (ImaGene.subset [1, 0] (ImaGene.subset [1, 0] gC1)).description = gC1.description ∧
     (ImaGene.subset [1, 0] (ImaGene.subset [1, 0] gC1)).targets = gC1.targets) :=
  C9_subset_identity_inverse gC1 [1, 0] [1, 0] (by decide) (by decide) (by decide)
    (by decide) (by decide)

/-! ## Properties of the argsort model -/

theorem argsortAsc_perm {α : Type} [LinearOrder α] (d : α) (ks : List α) :
    (argsortAsc d ks).Perm (List.range ks.length) :=
  List.perm_insertionSort _ _

theorem argsortAsc_sorted {α : Type} [LinearOrder α] (d : α) (ks : List α) :
    List.Sorted (idxLe d ks) (argsortAsc d ks) :=
  List.sorted_insertionSort _ _

theorem argsortAsc_headD_lt {α : Type} [LinearOrder α] (d : α) (ks : List α) (h : ks ≠ []) :
    (argsortAsc d ks).headD 0 < ks.length := by
  cases hl : argsortAsc d ks with
  | nil =>
    have hlen := (argsortAsc_perm d ks).length_eq
    rw [hl] at hlen
    simp only [List.length_nil, List.length_range] at hlen
    exact absurd (List.eq_nil_of_length_eq_zero hlen.symm) h
  | cons a tl =>
    have ha : a ∈ argsortAsc d ks := by rw [hl]; exact List.mem_cons_self a tl
    have := (argsortAsc_perm d ks).mem_iff.mp ha
    simpa using List.mem_range.mp this

theorem argsortAsc_headD_min {α : Type} [LinearOrder α] (d : α) (ks : List α) {j : Nat}
    (hj : j < ks.length) : idxLe d ks ((argsortAsc d ks).headD 0) j := by
  have hjmem : j ∈ argsortAsc d ks :=
    (argsortAsc_perm d ks).mem_iff.mpr (List.mem_range.mpr hj)
  cases hl : argsortAsc d ks with
  | nil => rw [hl] at hjmem; simp at hjmem
  | cons a tl =>
    rw [hl] at hjmem
    rcases List.mem_cons.mp hjmem with he | ht
    · subst he
      exact Or.inr ⟨rfl, le_refl _⟩
    · have hs := argsortAsc_sorted d ks
      rw [hl] at hs
      have := List.rel_of_sorted_cons hs j ht
      simpa using this

/-! ## C5: nearest-class snapping -/

theorem absKeys_getD (t : Int) (classes : List Int) {j : Nat} (hj : j < classes.length) :
    (classes.map (fun c => (t - c).natAbs)).getD j 0 = (t - classes.getD j 0).natAbs := by
  rw [List.getD_eq_getElem _ _ (by simpa using hj), List.getElem_map,
    List.getD_eq_getElem _ _ hj]

theorem sorted_getD_lt (classes : List Int) (hsort : List.Sorted (· < ·) classes)
    {k l : Nat} (hkl : k < l) (hl : l < classes.length) :
    classes.getD k 0 < classes.getD l 0 := by
  have hk : k < classes.length := lt_trans hkl hl
  have := hsort.get_strictMono (a := ⟨k, hk⟩) (b := ⟨l, hl⟩) hkl
  rwa [List.get_eq_getElem, List.get_eq_getElem, ← List.getD_eq_getElem classes 0 hk,
    ← List.getD_eq_getElem classes 0 hl] at this

theorem snapClass_headD_lt (t : Int) (classes : List Int) (hne : classes ≠ []) :
    (argsortAsc 0 (classes.map (fun c => (t - c).natAbs))).headD 0 < classes.length := by
  have hksne : classes.map (fun c => (t - c).natAbs) ≠ [] := by
    intro h
    exact hne (by simpa using h)
  have := argsortAsc_headD_lt 0 _ hksne
  simpa using this

theorem snapClass_mem (t : Int) (classes : List Int) (hne : classes ≠ []) :
    snapClass t classes ∈ classes := by
  have hlt := snapClass_headD_lt t classes hne
  rw [snapClass, List.getD_eq_getElem _ _ hlt]
  exact List.getElem_mem _

theorem snapClass_nearest (t : Int) (classes : List Int) (hne : classes ≠ []) :
    ∀ c ∈ classes, (snapClass t classes - t).natAbs ≤ (c - t).natAbs := by
  intro c hc
  obtain ⟨j, hj, hjc⟩ := List.getElem_of_mem hc
  have hlt := snapClass_headD_lt t classes hne
  have hmin := argsortAsc_headD_min 0 (classes.map (fun c => (t - c).natAbs))
    (j := j) (by simpa using hj)
  have hle : (classes.map (fun c => (t - c).natAbs)).getD
      ((argsortAsc 0 (classes.map (fun c => (t - c).natAbs))).headD 0) 0 ≤
      (classes.map (fun c => (t - c).natAbs)).getD j 0 := by
    rcases hmin with h | ⟨h, _⟩
    · exact le_of_lt h
    · exact le_of_eq h
  rw [absKeys_getD t classes hlt, absKeys_getD t classes hj] at hle
  have hcj : classes.getD j 0 = c := by rw [List.getD_eq_getElem _ _ hj, hjc]
  rw [hcj] at hle
  simp only [snapClass]
  omega

theorem snapClass_tie (t : Int) (classes : List Int) (hsort : List.Sorted (· < ·) classes)
    {j : Nat} (hj1 : j + 1 < classes.length)
    (ht : 2 * t = classes.getD j 0 + classes.getD (j + 1) 0) :
    snapClass t classes = classes.getD j 0 := by
  have hj : j < classes.length := lt_trans (Nat.lt_succ_self j) hj1
  have hne : classes ≠ [] := by
    intro he
    rw [he] at hj
    simp at hj
  have hab : classes.getD j 0 < classes.getD (j + 1) 0 :=
    sorted_getD_lt classes hsort (Nat.lt_succ_self j) hj1
  have hlt := snapClass_headD_lt t classes hne
  have hglob : ∀ k, k < classes.length →
      (t - classes.getD j 0).natAbs ≤ (t - classes.getD k 0).natAbs := by
    intro k hk
    rcases lt_trichotomy k j with hkj | hkj | hkj
    · have := sorted_getD_lt classes hsort hkj hj
      omega
    · subst hkj
      exact le_refl _
    · rcases Nat.lt_or_ge k (j + 2) with hk2 | hk2
      · have hkeq : k = j + 1 := by omega
        subst hkeq
        omega
      · have := sorted_getD_lt classes hsort (show j + 1 < k by omega) hk
        omega
  have hminj := argsortAsc_headD_min 0 (classes.map (fun c => (t - c).natAbs))
    (j := j) (by simpa using hj)
  rcases hminj with hlt2 | ⟨heq, hle⟩
  · rw [absKeys_getD t classes hlt, absKeys_getD t classes hj] at hlt2
    exact absurd (hglob _ hlt) (by omega)
  · rw [absKeys_getD t classes hlt, absKeys_getD t classes hj] at heq
    have hhj : (argsortAsc 0 (classes.map (fun c => (t - c).natAbs))).headD 0 = j := by
      by_contra hne2
      have hhlt : (argsortAsc 0 (classes.map (fun c => (t - c).natAbs))).headD 0 < j :=
        lt_of_le_of_ne hle hne2
      have := sorted_getD_lt classes hsort hhlt hj
      omega
    rw [snapClass, hhj]

/-- **C5**: on a collection whose class set is strictly increasing,
`set_targets` stores for each sample the class nearest to its raw
metadata-derived target, and when the raw target is the exact midpoint of
two adjacent classes the smaller (left) class is chosen. -/
theorem C5_set_targets_nearest (g : ImaGene) (i : Nat)
    (hsort : List.Sorted (· < ·) g.classes) (hne : g.classes ≠ [])
    (hi : i < g.data.length) :
    (ImaGene.set_targets g).targets.getD i 0 =
      snapClass (g.description.getD i 0) g.classes ∧
    snapClass (g.description.getD i 0) g.classes ∈ g.classes ∧
    (∀ c ∈ g.classes,
      (snapClass (g.description.getD i 0) g.classes - g.description.getD i 0).natAbs ≤
        (c - g.description.getD i 0).natAbs) ∧
    (∀ j, j + 1 < g.classes.length →
      2 * g.description.getD i 0 = g.classes.getD j 0 + g.classes.getD (j + 1) 0 →
      snapClass (g.description.getD i 0) g.classes = g.classes.getD j 0) := by
  refine ⟨?_, snapClass_mem _ _ hne, snapClass_nearest _ _ hne, ?_⟩
  · have hrw : (ImaGene.set_targets g).targets =
        (List.range g.data.length).map
          (fun j => snapClass (g.description.getD j 0) g.classes) := rfl
    rw [hrw, getD_range_map _ _ _ hi]
  · intro j hj1 ht
    exact snapClass_tie _ _ hsort hj1 ht

theorem C5_set_targets_nearest_witness :
    (ImaGene.set_targets gEx).targets.getD 0 0 =
      snapClass (gEx.description.getD 0 0) gEx.classes ∧
    snapClass (gEx.description.getD 0 0) gEx.classes ∈ gEx.classes ∧
    (∀ c ∈ gEx.classes,
      (snapClass (gEx.description.getD 0 0) gEx.classes - gEx.description.getD 0 0).natAbs ≤
        (c - gEx.description.getD 0 0).natAbs) ∧
    (∀ j, j + 1 < gEx.classes.length →
      2 * gEx.description.getD 0 0 = gEx.classes.getD j 0 + gEx.classes.getD (j + 1) 0 →
      snapClass (gEx.description.getD 0 0) gEx.classes = gEx.classes.getD j 0) :=
  C5_set_targets_nearest gEx 0 (by decide) (by decide) (by decide)

/-! ## C6: filter_freq is idempotent; threshold 0 is a no-op -/

theorem overwriteFront_length {α : Type} (d : α) (old vals : List α) :
    (overwriteFront d old vals).length = old.length := by
  simp [overwriteFront]

theorem overwriteFront_getD {α : Type} (d : α) (old vals : List α) {k : Nat}
    (hk : k < old.length) :
    (overwriteFront d old vals).getD k d =
      if k < vals.length then vals.getD k d else old.getD k d := by
  unfold overwriteFront
  exact getD_range_map d _ _ hk

theorem overwriteFront_idem {α : Type} (d : α) (old vals : List α) :
    overwriteFront d (overwriteFront d old vals) vals = overwriteFront d old vals := by
  apply List.ext_getElem
  · simp [overwriteFront_length]
  · intro k h1 h2
    have hk : k < old.length := by simpa [overwriteFront_length] using h2
    rw [← List.getD_eq_getElem _ d h1, ← List.getD_eq_getElem _ d h2,
      overwriteFront_getD d _ vals (by simpa [overwriteFront_length] using hk),
      overwriteFront_getD d old vals hk]
    split
    · rfl
    · rfl

theorem overwriteFront_eq_self {α : Type} (d : α) (old vals : List α)
    (hv : ∀ k, k < old.length → k < vals.length → vals.getD k d = old.getD k d) :
    overwriteFront d old vals = old := by
  apply List.ext_getElem
  · exact overwriteFront_length d old vals
  · intro k h1 h2
    rw [← List.getD_eq_getElem _ d h1, ← List.getD_eq_getElem old d h2,
      overwriteFront_getD d old vals h2]
    split
    · exact hv k h2 (by assumption)
    · rfl

theorem keptCols_mean (t : ℚ) (m : List (List Nat)) {c : Nat} (hc : c ∈ keptCols t m) :
    t ≤ colMean m c := by
  have := (List.mem_filter.mp hc).2
  simpa using this

theorem colMean_filterCols (t : ℚ) (m : List (List Nat)) {c' : Nat}
    (hc' : c' < (keptCols t m).length) :
    colMean (filterCols t m) c' = colMean m ((keptCols t m).getD c' 0) := by
  unfold colMean filterCols
  rw [List.map_map]
  congr 1
  · congr 1
    apply List.map_congr_left
    intro row _
    simp only [Function.comp]
    rw [List.getD_eq_getElem _ _ (by simpa using hc'), List.getElem_map,
      ← List.getD_eq_getElem _ 0 hc']
  · simp

theorem keptCols_filterCols (t : ℚ) (m : List (List Nat)) (h : 0 < m.length) :
    keptCols t (filterCols t m) = List.range ((keptCols t m).length) := by
  have h1 : keptCols t (filterCols t m) =
      (List.range (ncols (filterCols t m))).filter
        (fun c => decide (t ≤ colMean (filterCols t m) c)) := rfl
  rw [h1, ncols_filterCols t m h]
  apply List.filter_eq_self.mpr
  intro c hcr
  have hc' : c < (keptCols t m).length := List.mem_range.mp hcr
  rw [colMean_filterCols t m hc']
  apply decide_eq_true
  apply keptCols_mean
  rw [List.getD_eq_getElem _ _ hc']
  exact List.getElem_mem _

theorem filterCols_idem (t : ℚ) (m : List (List Nat)) (h : 0 < m.length) :
    filterCols t (filterCols t m) = filterCols t m := by
  have h1 : filterCols t (filterCols t m) =
      (filterCols t m).map
        (fun row => (keptCols t (filterCols t m)).map (fun c => row.getD c 0)) := rfl
  rw [h1, keptCols_filterCols t m h]
  have h2 : ∀ row ∈ filterCols t m,
      (List.range ((keptCols t m).length)).map (fun c => row.getD c 0) = row := by
    intro row hrow
    obtain ⟨row0, _, he⟩ := List.mem_map.mp hrow
    rw [← he]
    have hl : ((keptCols t m).map (fun c => row0.getD c 0)).length =
        (keptCols t m).length := List.length_map _ _
    rw [← hl]
    exact range_map_getD 0 _
  rw [List.map_congr_left h2]
  simp

theorem filterPos_idem (t : ℚ) (m : List (List Nat)) (pos : List ℚ) (h : 0 < m.length) :
    filterPos t (filterCols t m) (filterPos t m pos) = filterPos t m pos := by
  have h1 : filterPos t (filterCols t m) (filterPos t m pos) =
      (keptCols t (filterCols t m)).map (fun c => (filterPos t m pos).getD c 0) := rfl
  rw [h1, keptCols_filterCols t m h]
  have hl : (filterPos t m pos).length = (keptCols t m).length := List.length_map _ _
  rw [← hl]
  exact range_map_getD 0 _

theorem keptCols_zero (m : List (List Nat)) : keptCols 0 m = List.range (ncols m) := by
  apply List.filter_eq_self.mpr
  intro c _
  apply decide_eq_true
  unfold colMean
  apply div_nonneg _ (by positivity)
  apply List.sum_nonneg
  intro x hx
  obtain ⟨row, _, he⟩ := List.mem_map.mp hx
  rw [← he]
  positivity

theorem filterCols_zero (m : List (List Nat))
    (hwf : ∀ row ∈ m, row.length = ncols m) :
    filterCols 0 m = m := by
  have h1 : filterCols 0 m = m.map (fun row => (keptCols 0 m).map (fun c => row.getD c 0)) := rfl
  rw [h1, keptCols_zero]
  have h2 : ∀ row ∈ m, (List.range (ncols m)).map (fun c => row.getD c 0) = row := by
    intro row hrow
    rw [← hwf row hrow]
    exact range_map_getD 0 row
  rw [List.map_congr_left h2]
  simp

theorem filterPos_zero (m : List (List Nat)) (pos : List ℚ)
    (hlen : pos.length = ncols m) :
    filterPos 0 m pos = pos := by
  have h1 : filterPos 0 m pos = (keptCols 0 m).map (fun c => pos.getD c 0) := rfl
  rw [h1, keptCols_zero, ← hlen]
  exact range_map_getD 0 pos

/-- **C6**: on a collection of well-formed samples (at least one row,
uniform row length, aligned positions), `filter_freq` applied twice with the
same threshold gives the same matrices, positions and dimensions as applied
once, and `filter_freq` with threshold 0 leaves every sample's matrix and
positions unchanged. -/
theorem C6_filter_freq_idempotent (g : ImaGene) (t : ℚ)
    (hrows : ∀ i, i < g.data.length → 0 < (g.data.getD i []).length)
    (hwf : ∀ i, i < g.data.length → ∀ row ∈ g.data.getD i [],
      row.length = ncols (g.data.getD i []))
    (hpos : ∀ i, i < g.data.length →
      (g.positions.getD i []).length = ncols (g.data.getD i [])) :
    ((ImaGene.filter_freq t (ImaGene.filter_freq t g)).data =
        (ImaGene.filter_freq t g).data ∧
      (ImaGene.filter_freq t (ImaGene.filter_freq t g)).positions =
        (ImaGene.filter_freq t g).positions ∧
      (ImaGene.filter_freq t (ImaGene.filter_freq t g)).dimensions =
        (ImaGene.filter_freq t g).dimensions) ∧
    ((ImaGene.filter_freq 0 g).data = g.data ∧
      (ImaGene.filter_freq 0 g).positions = g.positions) := by
  have hd1 : (ImaGene.filter_freq t g).data =
      (List.range g.data.length).map (fun i => filterCols t (g.data.getD i [])) := rfl
  have hp1 : (ImaGene.filter_freq t g).positions =
      overwriteFront [] g.positions
        ((List.range g.data.length).map
          (fun i => filterPos t (g.data.getD i []) (g.positions.getD i []))) := rfl
  have hdim1 : (ImaGene.filter_freq t g).dimensions =
      (g.dimensions.1,
        overwriteFront 0 g.dimensions.2 ((ImaGene.filter_freq t g).data.map ncols)) := rfl
  have hlen1 : (ImaGene.filter_freq t g).data.length = g.data.length := by
    rw [hd1]; simp
  have hgetD1 : ∀ i, i < g.data.length →
      (ImaGene.filter_freq t g).data.getD i [] = filterCols t (g.data.getD i []) := by
    intro i hi
    rw [hd1]
    exact getD_range_map _ _ _ hi
  have hposD1 : ∀ i, i < g.data.length → i < g.positions.length →
      (ImaGene.filter_freq t g).positions.getD i [] =
        filterPos t (g.data.getD i []) (g.positions.getD i []) := by
    intro i hi hip
    rw [hp1, overwriteFront_getD _ _ _ hip, if_pos (by simpa using hi),
      getD_range_map _ _ _ hi]
  have hdata2 : (ImaGene.filter_freq t (ImaGene.filter_freq t g)).data =
      (ImaGene.filter_freq t g).data := by
    have hd2 : (ImaGene.filter_freq t (ImaGene.filter_freq t g)).data =
        (List.range (ImaGene.filter_freq t g).data.length).map
          (fun i => filterCols t ((ImaGene.filter_freq t g).data.getD i [])) := rfl
    rw [hd2, hlen1]
    have hcongr : ∀ i ∈ List.range g.data.length,
        filterCols t ((ImaGene.filter_freq t g).data.getD i []) =
          (ImaGene.filter_freq t g).data.getD i [] := by
      intro i hi
      have hi' := List.mem_range.mp hi
      rw [hgetD1 i hi']
      exact filterCols_idem t _ (hrows i hi')
    rw [List.map_congr_left hcongr, ← hlen1]
    exact range_map_getD [] _
  refine ⟨⟨hdata2, ?_, ?_⟩, ?_, ?_⟩
  · have hp2 : (ImaGene.filter_freq t (ImaGene.filter_freq t g)).positions =
        overwriteFront [] (ImaGene.filter_freq t g).positions
          ((List.range (ImaGene.filter_freq t g).data.length).map
            (fun i => filterPos t ((ImaGene.filter_freq t g).data.getD i [])
              ((ImaGene.filter_freq t g).positions.getD i []))) := rfl
    rw [hp2, hlen1]
    apply overwriteFront_eq_self
    intro k hk1 hk2
    have hkn : k < g.data.length := by simpa using hk2
    have hkp : k < g.positions.length := by
      rw [hp1, overwriteFront_length] at hk1
      exact hk1
    rw [getD_range_map _ _ _ hkn, hgetD1 k hkn, hposD1 k hkn hkp]
    exact filterPos_idem t _ _ (hrows k hkn)
  · have hdim2 : (ImaGene.filter_freq t (ImaGene.filter_freq t g)).dimensions =
        ((ImaGene.filter_freq t g).dimensions.1,
          overwriteFront 0 (ImaGene.filter_freq t g).dimensions.2
            ((ImaGene.filter_freq t (ImaGene.filter_freq t g)).data.map ncols)) := rfl
    rw [hdim2, hdata2, hdim1]
    exact congrArg (Prod.mk g.dimensions.1) (overwriteFront_idem 0 _ _)
  · have hd0 : (ImaGene.filter_freq 0 g).data =
        (List.range g.data.length).map (fun i => filterCols 0 (g.data.getD i [])) := rfl
    rw [hd0]
    have hcongr : ∀ i ∈ List.range g.data.length,
        filterCols 0 (g.data.getD i []) = g.data.getD i [] := by
      intro i hi
      exact filterCols_zero _ (hwf i (List.mem_range.mp hi))
    rw [List.map_congr_left hcongr]
    exact range_map_getD [] _
  · have hp0 : (ImaGene.filter_freq 0 g).positions =
        overwriteFront [] g.positions
          ((List.range g.data.length).map
            (fun i => filterPos 0 (g.data.getD i []) (g.positions.getD i []))) := rfl
    rw [hp0]
    apply overwriteFront_eq_self
    intro k hk1 hk2
    have hkn : k < g.data.length := by simpa using hk2
    rw [getD_range_map _ _ _ hkn]
    exact filterPos_zero _ _ (hpos k hkn)

theorem C6_filter_freq_idempotent_witness :
    ((ImaGene.filter_freq (1 / 2) (ImaGene.filter_freq (1 / 2) gEx)).data =
        (ImaGene.filter_freq (1 / 2) gEx).data ∧
      (ImaGene.filter_freq (1 / 2) (ImaGene.filter_freq (1 / 2) gEx)).positions =
        (ImaGene.filter_freq (1 / 2) gEx).positions ∧
      (ImaGene.filter_freq (1 / 2) (ImaGene.filter_freq (1 / 2) gEx)).dimensions =
        (ImaGene.filter_freq (1 / 2) gEx).dimensions) ∧
    ((ImaGene.filter_freq 0 gEx).data = gEx.data ∧
      (ImaGene.filter_freq 0 gEx).positions = gEx.positions) :=
  C6_filter_freq_idempotent gEx (1 / 2) (by decide) (by decide) (by decide)

/-! ## C4: sort is a permutation of rows/columns -/

theorem getD_map_lt {α β : Type} (f : α → β) (l : List α) (d : α) (d' : β) {j : Nat}
    (hj : j < l.length) : (l.map f).getD j d' = f (l.getD j d) := by
  rw [List.getD_eq_getElem _ _ (by simpa using hj), List.getElem_map,
    List.getD_eq_getElem _ _ hj]

theorem uniqueRows_nodup (m : List (List Nat)) : (uniqueRows m).Nodup :=
  (List.perm_insertionSort _ _).symm.nodup (List.nodup_dedup m)

theorem uniqueRows_mem (m : List (List Nat)) (x : List Nat) :
    x ∈ uniqueRows m ↔ x ∈ m :=
  (List.perm_insertionSort _ _).mem_iff.trans List.mem_dedup

theorem perm_flatMap_replicate_count {α : Type} [BEq α] [LawfulBEq α] :
    ∀ (u m : List α), u.Nodup → (∀ x, x ∈ m ↔ x ∈ u) →
      (u.flatMap (fun x => List.replicate (m.count x) x)).Perm m
  | [], m, _, hmem => by
    have hm : m = [] :=
      List.eq_nil_iff_forall_not_mem.mpr (fun a ha => by simpa using (hmem a).mp ha)
    simp [hm]
  | a :: u', m, hnd, hmem => by
    rw [List.flatMap_cons]
    have hnd' := List.nodup_cons.mp hnd
    have hcount : ∀ x ∈ u', m.count x = (m.filter (fun y => y != a)).count x := by
      intro x hx
      have hxa : x ≠ a := by
        intro he
        exact hnd'.1 (he ▸ hx)
      rw [List.count_filter (by simpa using hxa)]
    have hmem' : ∀ x, x ∈ m.filter (fun y => y != a) ↔ x ∈ u' := by
      intro x
      constructor
      · intro hxm'
        have hxm := List.mem_of_mem_filter hxm'
        have hxa : x ≠ a := by simpa using List.of_mem_filter hxm'
        rcases List.mem_cons.mp ((hmem x).mp hxm) with he | h
        · exact absurd he hxa
        · exact h
      · intro hxu'
        have hxa : x ≠ a := fun he => hnd'.1 (he ▸ hxu')
        have hxm : x ∈ m := (hmem x).mpr (List.mem_cons_of_mem a hxu')
        exact List.mem_filter.mpr ⟨hxm, by simpa using hxa⟩
    have IH := perm_flatMap_replicate_count u' (m.filter (fun y => y != a)) hnd'.2 hmem'
    have hflat : u'.flatMap (fun x => List.replicate (m.count x) x) =
        u'.flatMap (fun x => List.replicate ((m.filter (fun y => y != a)).count x) x) := by
      rw [List.flatMap_def, List.flatMap_def]
      congr 1
      apply List.map_congr_left
      intro x hx
      rw [hcount x hx]
    have hsplit : ((m.filter (fun y => y == a)) ++ m.filter (fun y => y != a)).Perm m := by
      simpa using List.filter_append_perm (fun y => y == a) m
    have hrep : m.filter (fun y => y == a) = List.replicate (m.count a) a :=
      List.filter_beq m a
    rw [hflat]
    refine List.Perm.trans (List.Perm.append_left _ IH) ?_
    rw [← hrep]
    exact hsplit

theorem range_flatMap_getD {α β : Type} (d : α) (g : α → List β) :
    ∀ u : List α,
      ((List.range u.length).flatMap (fun j => g (u.getD j d))) = u.flatMap g
  | [] => by simp
  | a :: u' => by
    rw [List.length_cons, List.range_succ_eq_map, List.flatMap_cons, List.flatMap_map,
      List.flatMap_cons]
    congr 1
    have : (fun j => g ((a :: u').getD (Nat.succ j) d)) = fun j => g (u'.getD j d) := by
      funext j
      rw [List.getD_cons_succ]
    rw [this, range_flatMap_getD d g u']

theorem countsOf_length (xs : List (List Nat)) :
    (countsOf xs).length = (uniqueRows xs).length :=
  List.length_map _ _

theorem regroup_range (xs : List (List Nat)) :
    regroup xs (List.range ((uniqueRows xs).length)) =
      (uniqueRows xs).flatMap (fun x => List.replicate (xs.count x) x) := by
  unfold regroup
  have hcongr : ∀ j ∈ List.range ((uniqueRows xs).length),
      List.replicate ((countsOf xs).getD j 0) ((uniqueRows xs).getD j []) =
        List.replicate (xs.count ((uniqueRows xs).getD j [])) ((uniqueRows xs).getD j []) := by
    intro j hj
    have hjl := List.mem_range.mp hj
    unfold countsOf
    rw [getD_map_lt _ _ [] 0 hjl]
  rw [List.flatMap_def, List.map_congr_left hcongr, ← List.flatMap_def]
  exact range_flatMap_getD []
    (fun x => List.replicate (xs.count x) x) (uniqueRows xs)

theorem regroup_perm (xs : List (List Nat)) (ord : List Nat)
    (h : ord.Perm (List.range ((uniqueRows xs).length))) :
    (regroup xs ord).Perm xs := by
  have h1 : (regroup xs ord).Perm (regroup xs (List.range ((uniqueRows xs).length))) :=
    List.Perm.flatMap_right _ h
  rw [regroup_range] at h1
  exact h1.trans (perm_flatMap_replicate_count (uniqueRows xs) xs (uniqueRows_nodup xs)
    (fun x => (uniqueRows_mem xs x).symm))

theorem argsortDesc_perm {α : Type} [LinearOrder α] (d : α) (ks : List α) :
    (argsortDesc d ks).Perm (List.range ks.length) :=
  (List.reverse_perm _).trans (argsortAsc_perm d ks)

theorem sortRowsFreq_perm (m : List (List Nat)) : (sortRowsFreq m).Perm m := by
  apply regroup_perm
  have := argsortDesc_perm 0 (countsOf m)
  rwa [countsOf_length] at this

theorem sortRowsDist_perm (m : List (List Nat)) : (sortRowsDist m).Perm m := by
  apply regroup_perm
  have := argsortAsc_perm 0 (distsOf m)
  have hl : (distsOf m).length = (uniqueRows m).length := List.length_map _ _
  rwa [hl] at this

theorem colsOf_length_mem (m : List (List Nat)) :
    ∀ col ∈ colsOf m, col.length = m.length := by
  intro col h
  obtain ⟨c, _, he⟩ := List.mem_map.mp h
  rw [← he]
  simp [column]

theorem regroup_length_mem (xs : List (List Nat)) (ord : List Nat)
    (hord : ∀ j ∈ ord, j < (uniqueRows xs).length) (n : Nat)
    (hxs : ∀ x ∈ xs, x.length = n) :
    ∀ x ∈ regroup xs ord, x.length = n := by
  intro x hx
  obtain ⟨j, hj, hxr⟩ := List.mem_flatMap.mp hx
  rw [List.eq_of_mem_replicate hxr]
  apply hxs
  apply (uniqueRows_mem xs _).mp
  rw [List.getD_eq_getElem _ _ (hord j hj)]
  exact List.getElem_mem _

theorem fromCols_colsOf (n : Nat) (cols : List (List Nat)) (hn : 0 < n)
    (hc : ∀ col ∈ cols, col.length = n) : colsOf (fromCols n cols) = cols := by
  have hnc : ncols (fromCols n cols) = cols.length := by
    unfold fromCols ncols
    cases n with
    | zero => omega
    | succ k =>
      rw [List.range_succ_eq_map]
      simp
  unfold colsOf
  rw [hnc]
  apply List.ext_getElem
  · simp
  · intro c h1 h2
    simp only [List.getElem_map, List.getElem_range]
    have hc2 : c < cols.length := by simpa using h2
    have hcol : column (fromCols n cols) c =
        (List.range n).map (fun r => (cols.getD c []).getD r 0) := by
      unfold column fromCols
      rw [List.map_map]
      apply List.map_congr_left
      intro r _
      simp only [Function.comp]
      rw [getD_map_lt (fun col => col.getD r 0) cols [] 0 hc2]
    rw [hcol]
    have hlen : (cols.getD c []).length = n := by
      apply hc
      rw [List.getD_eq_getElem _ _ hc2]
      exact List.getElem_mem _
    rw [← hlen, range_map_getD 0 (cols.getD c []), List.getD_eq_getElem _ _ hc2]

theorem sortCols_regroup_perm (m : List (List Nat)) (ord : List Nat) (hm : 0 < m.length)
    (hperm : ord.Perm (List.range ((uniqueRows (colsOf m)).length))) :
    (colsOf (fromCols m.length (regroup (colsOf m) ord))).Perm (colsOf m) := by
  have hord : ∀ j ∈ ord, j < (uniqueRows (colsOf m)).length := fun j hj =>
    List.mem_range.mp (hperm.mem_iff.mp hj)
  have hlens : ∀ x ∈ regroup (colsOf m) ord, x.length = m.length :=
    regroup_length_mem _ _ hord m.length (colsOf_length_mem m)
  rw [fromCols_colsOf m.length _ hm hlens]
  exact regroup_perm _ _ hperm

theorem sortColsFreq_perm (m : List (List Nat)) :
    (colsOf (sortColsFreq m)).Perm (colsOf m) := by
  cases m with
  | nil =>
    have h1 : sortColsFreq ([] : List (List Nat)) = [] := rfl
    have h2 : colsOf ([] : List (List Nat)) = [] := rfl
    rw [h1, h2]
  | cons r rs =>
    unfold sortColsFreq
    apply sortCols_regroup_perm _ _ (by simp)
    have := argsortDesc_perm 0 (countsOf (colsOf (r :: rs)))
    rwa [countsOf_length] at this

theorem sortColsDist_perm (m : List (List Nat)) :
    (colsOf (sortColsDist m)).Perm (colsOf m) := by
  cases m with
  | nil =>
    have h1 : sortColsDist ([] : List (List Nat)) = [] := rfl
    have h2 : colsOf ([] : List (List Nat)) = [] := rfl
    rw [h1, h2]
  | cons r rs =>
    unfold sortColsDist
    apply sortCols_regroup_perm _ _ (by simp)
    have := argsortAsc_perm 0 (distsOf (colsOf (r :: rs)))
    have hl : (distsOf (colsOf (r :: rs))).length = (uniqueRows (colsOf (r :: rs))).length :=
      List.length_map _ _
    rwa [hl] at this

/-- The occurrence counts of the groups in the order the frequency-descending
fill loop writes them out. -/
def groupOrderCounts (xs : List (List Nat)) : List Nat :=
  (argsortDesc 0 (countsOf xs)).map (fun j => (countsOf xs).getD j 0)

theorem groupOrderCounts_sorted (xs : List (List Nat)) :
    List.Sorted (· ≥ ·) (groupOrderCounts xs) := by
  unfold groupOrderCounts argsortDesc
  rw [List.map_reverse]
  apply List.pairwise_reverse.mpr
  apply List.pairwise_map.mpr
  apply List.Pairwise.imp ?_ (argsortAsc_sorted 0 (countsOf xs))
  intro i j hij
  rcases hij with h | ⟨h, _⟩
  · exact le_of_lt h
  · exact le_of_eq h

/-- **C4**: each of the four `sort` modes permutes every sample: the row
modes keep the multiset of rows, the column modes keep the multiset of
columns; the `rows_freq` output is exactly the groups written in
descending-count order (`regroup`), and the occurrence counts of the groups
along that order (`groupOrderCounts`, for rows and for columns) are
non-increasing. -/
theorem C4_sort_permutation (g : ImaGene) (i : Nat) :
    ((ImaGene.sort "rows_freq" g).2.data.getD i []).Perm (g.data.getD i []) ∧
    ((ImaGene.sort "rows_dist" g).2.data.getD i []).Perm (g.data.getD i []) ∧
    (colsOf ((ImaGene.sort "cols_freq" g).2.data.getD i [])).Perm
      (colsOf (g.data.getD i [])) ∧
    (colsOf ((ImaGene.sort "cols_dist" g).2.data.getD i [])).Perm
      (colsOf (g.data.getD i [])) ∧
    (ImaGene.sort "rows_freq" g).2.data.getD i [] =
      regroup (g.data.getD i []) (argsortDesc 0 (countsOf (g.data.getD i []))) ∧
    List.Sorted (· ≥ ·) (groupOrderCounts (g.data.getD i [])) ∧
    List.Sorted (· ≥ ·) (groupOrderCounts (colsOf (g.data.getD i []))) := by
  have hrf : (ImaGene.sort "rows_freq" g).2.data = g.data.map sortRowsFreq := by
    simp [ImaGene.sort]
  have hrd : (ImaGene.sort "rows_dist" g).2.data = g.data.map sortRowsDist := by
    simp [ImaGene.sort]
  have hcf : (ImaGene.sort "cols_freq" g).2.data = g.data.map sortColsFreq := by
    simp [ImaGene.sort]
  have hcd : (ImaGene.sort "cols_dist" g).2.data = g.data.map sortColsDist := by
    simp [ImaGene.sort]
  rw [hrf, hrd, hcf, hcd]
  by_cases hi : i < g.data.length
  · rw [getD_map_lt _ _ [] [] hi, getD_map_lt _ _ [] [] hi, getD_map_lt _ _ [] [] hi,
      getD_map_lt _ _ [] [] hi]
    exact ⟨sortRowsFreq_perm _, sortRowsDist_perm _, sortColsFreq_perm _,
      sortColsDist_perm _, rfl, groupOrderCounts_sorted _, groupOrderCounts_sorted _⟩
  · have hle : g.data.length ≤ i := le_of_not_lt hi
    have h0 : g.data.getD i [] = [] := List.getD_eq_default _ _ hle
    have h1 : (g.data.map sortRowsFreq).getD i [] = [] :=
      List.getD_eq_default _ _ (by simpa using hle)
    have h2 : (g.data.map sortRowsDist).getD i [] = [] :=
      List.getD_eq_default _ _ (by simpa using hle)
    have h3 : (g.data.map sortColsFreq).getD i [] = [] :=
      List.getD_eq_default _ _ (by simpa using hle)
    have h4 : (g.data.map sortColsDist).getD i [] = [] :=
      List.getD_eq_default _ _ (by simpa using hle)
    rw [h0, h1, h2, h3, h4]
    exact ⟨List.Perm.refl _, List.Perm.refl _, List.Perm.refl _, List.Perm.refl _,
      rfl, groupOrderCounts_sorted _, groupOrderCounts_sorted _⟩
